import Mathlib

/-!
Verification of the CWT worker core of this repository (the web-worker code in
the visualizer component: functions fft, reverseIndex, ifft, morlet, mexicanHat
and cwt).  Float64 arithmetic is embedded as exact real arithmetic; each pair
of parallel Float64Arrays (re, im) is embedded as a pair of total functions
ℕ → ℝ (typed arrays are zero-initialised on allocation, and no statement below
depends on values outside the region the algorithm actually writes).
-/

/-- Body of the reverseIndex loop:
reversed = (reversed << 1) | (index & 1); index >>= 1 .
Since reversed << 1 has lowest bit 0, the bitwise or is plain addition:
(reversed << 1) | (index & 1) = 2 * reversed + index % 2 . -/
def reverseIndexGo : ℕ → ℕ → ℕ → ℕ
  | 0, reversed, _ => reversed
  | i + 1, reversed, index => reverseIndexGo i (2 * reversed + index % 2) (index / 2)

/-- reverseIndex(index, n) from the worker.  The JS loop
for (let i = 0; i < Math.log2(n); i++) with an integer counter runs
⌈log2 n⌉ times, which is Nat.clog 2 n (also for n = 0 and n = 1, where it
runs zero times). -/
def reverseIndex (index n : ℕ) : ℕ := reverseIndexGo (Nat.clog 2 n) 0 index

/-- Reversal of the low k bits: reverseIndex with the iteration count made
explicit. -/
def rev (k i : ℕ) : ℕ := reverseIndexGo k 0 i

/-- State of the in-place FFT: the pair of Float64Arrays (re, im). -/
abbrev St := (ℕ → ℝ) × (ℕ → ℝ)

/-- The destructuring swap [a[i], a[j]] = [a[j], a[i]] as a functional
update. -/
def swapAt (f : ℕ → ℝ) (a b : ℕ) : ℕ → ℝ :=
  fun m => if m = a then f b else if m = b then f a else f m

/-- The bit-reversal permutation pass at the top of fft: for each i < n,
if i < reverseIndex(i, n) swap entries i and reverseIndex(i, n) of both
arrays. -/
def bitrevPerm (n : ℕ) (s : St) : St :=
  (List.range n).foldl
    (fun s i =>
      if i < reverseIndex i n then
        (swapAt s.1 i (reverseIndex i n), swapAt s.2 i (reverseIndex i n))
      else s) s

noncomputable section

/-- One butterfly of the fft inner loop.  k is the (floating-point) twiddle
counter of the JS code; exact real arithmetic makes the accumulated
k += tablestep equal to t * tablestep, so we pass k : ℝ directly:
tpre =  re[j+halfsize]*cos(2πk/n) + im[j+halfsize]*sin(2πk/n)
tpim = -re[j+halfsize]*sin(2πk/n) + im[j+halfsize]*cos(2πk/n)
re[j+halfsize] = re[j] - tpre ; im[j+halfsize] = im[j] - tpim
re[j] += tpre ; im[j] += tpim . -/
def butterfly (n : ℕ) (k : ℝ) (halfsize j : ℕ) (s : St) : St :=
  let tpre := s.1 (j + halfsize) * Real.cos (2 * Real.pi * k / n)
              + s.2 (j + halfsize) * Real.sin (2 * Real.pi * k / n)
  let tpim := -(s.1 (j + halfsize)) * Real.sin (2 * Real.pi * k / n)
              + s.2 (j + halfsize) * Real.cos (2 * Real.pi * k / n)
  (fun m => if m = j + halfsize then s.1 j - tpre else if m = j then s.1 j + tpre else s.1 m,
   fun m => if m = j + halfsize then s.2 j - tpim else if m = j then s.2 j + tpim else s.2 m)

/-- Inner loop of fft: for (let j = i, k = 0; j < i + halfsize; j++, k += tablestep)
with tablestep = n / size (a float division in JS, here an exact real). -/
def innerLoop (n size i : ℕ) (s : St) : St :=
  (List.range (size / 2)).foldl
    (fun s t => butterfly n (((t : ℕ) : ℝ) * ((n : ℝ) / (size : ℝ))) (size / 2) (i + t) s) s

/-- Middle loop of fft: for (let i = 0; i < n; i += size), which visits
⌈n / size⌉ block starts. -/
def blockLoop (n size : ℕ) (s : St) : St :=
  (List.range ((n + size - 1) / size)).foldl (fun s b => innerLoop n size (b * size) s) s

/-- Outer loop of fft: for (let size = 2; size <= n; size *= 2), i.e. sizes
2^1 .. 2^(Nat.log2 n). -/
def fftPasses (n : ℕ) (s : St) : St :=
  (List.range (Nat.log2 n)).foldl (fun s q => blockLoop n (2 ^ (q + 1)) s) s

/-- fft(re, im) from the worker, with n = re.length passed explicitly. -/
def fft (n : ℕ) (s : St) : St := fftPasses n (bitrevPerm n s)

/-- ifft(re, im) from the worker: forward fft, then re[i] /= n and
im[i] /= n for i < n, then im[i] = -im[i] for each entry. -/
def ifft (n : ℕ) (s : St) : St :=
  let t := fft n s
  (fun i => if i < n then t.1 i / n else t.1 i,
   fun i => if i < n then -(t.2 i / n) else t.2 i)

/-- morlet(t, scale) with the default centralFrequency = 6. -/
def morlet (t scale : ℝ) : ℝ :=
  Real.sqrt (1 / scale) * Real.exp (-(t * t) / (2 * scale * scale)) * Real.cos (6 * t / scale)

/-- mexicanHat(t, scale). -/
def mexicanHat (t scale : ℝ) : ℝ :=
  Real.sqrt (2 / (Real.sqrt 3 * Real.pi ^ (0.25 : ℝ))) * (1 - t / scale * (t / scale))
    * Real.exp (-(t / scale * (t / scale)) / 2) / Real.sqrt scale

/-- paddedLength = Math.pow(2, Math.ceil(Math.log2(N * 2))).  For N ≥ 1 the
ceiling of the real log2 of N * 2 is Nat.clog 2 (N * 2); for N = 0 the JS
expression is Math.pow(2, -Infinity) = 0. -/
def paddedLength (N : ℕ) : ℕ := if N = 0 then 0 else 2 ^ Nat.clog 2 (N * 2)

/-- The zero-padded signal buffer: new Float64Array(paddedLength) followed by
paddedSignal.set(signal). -/
def padded (signal : List ℝ) : ℕ → ℝ := fun t => signal.getD t 0

/-- A freshly allocated Float64Array: all zeros. -/
def zeroArr : ℕ → ℝ := fun _ => 0

/-- The signal spectrum computed once by cwt: fft of the zero-padded signal
with a zero imaginary part. -/
def signalSpectrum (signal : List ℝ) : St :=
  fft (paddedLength signal.length) (padded signal, zeroArr)

/-- The wavelet buffer synthesised per scale:
for (let t = 0; t < paddedLength; t++) waveletRe[t] = waveletFunction(t - N / 2, scale),
with N the signal length (t - N / 2 is a float subtraction). -/
def waveletBuf (N : ℕ) (wf : ℝ → ℝ → ℝ) (scale : ℝ) : ℕ → ℝ :=
  fun t => wf ((t : ℝ) - (N : ℝ) / 2) scale

/-- The wavelet spectrum: fft of the wavelet buffer with zero imaginary
part. -/
def waveletSpectrum (N : ℕ) (wf : ℝ → ℝ → ℝ) (scale : ℝ) : St :=
  fft (paddedLength N) (waveletBuf N wf scale, zeroArr)

/-- The per-scale frequency-domain product and its inverse transform:
convolutionRe[j] = signalRe[j]*waveletRe[j] + signalIm[j]*waveletIm[j]
convolutionIm[j] = signalIm[j]*waveletRe[j] - signalRe[j]*waveletIm[j]
followed by ifft(convolutionRe, convolutionIm). -/
def convState (signal : List ℝ) (wf : ℝ → ℝ → ℝ) (scale : ℝ) : St :=
  let s := signalSpectrum signal
  let w := waveletSpectrum signal.length wf scale
  ifft (paddedLength signal.length)
    (fun j => s.1 j * w.1 j + s.2 j * w.2 j,
     fun j => s.2 j * w.1 j - s.1 j * w.2 j)

/-- cwt(signal, scales, waveletFunction): the flat Float64Array W of length
scales.length * N with
W[i*N + t] = Math.sqrt(convolutionRe[t]^2 + convolutionIm[t]^2) / Math.sqrt(scale)
written scale by scale (outer loop over i) and sample by sample (inner loop
over t < N).  The source contains no input validation and no throw statement:
every call runs the loops to completion and returns W. -/
def cwt (signal scales : List ℝ) (wf : ℝ → ℝ → ℝ) : ℕ → ℝ :=
  let N := signal.length
  (List.range scales.length).foldl
    (fun W i =>
      let scale := scales.getD i 0
      let conv := convState signal wf scale
      (List.range N).foldl
        (fun W t => fun m =>
          if m = i * N + t then
            Real.sqrt (conv.1 t * conv.1 t + conv.2 t * conv.2 t) / Real.sqrt scale
          else W m) W)
    (fun _ => 0)

/-- The flat result W reshaped into its M rows of N columns, exactly as the
consumer does with result.subarray(i * signalLength, (i + 1) * signalLength)
for each row i. -/
def cwtMatrix (signal scales : List ℝ) (wf : ℝ → ℝ → ℝ) : List (List ℝ) :=
  (List.range scales.length).map
    (fun i => (List.range signal.length).map
      (fun t => cwt signal scales wf (i * signal.length + t)))

/-- The error taxonomy named by the specification.  None of these names
occurs anywhere in the source. -/
inductive CwtError where
  | invalidLength : CwtError
  | emptyInput : CwtError
  | invalidScale : CwtError

/-- Call semantics of fft: the source body of fft contains no validation and
no throw statement, so every call returns normally. -/
def fftCall (n : ℕ) (s : St) : Except CwtError St := Except.ok (fft n s)

/-- Call semantics of ifft: likewise free of any validation or throw. -/
def ifftCall (n : ℕ) (s : St) : Except CwtError St := Except.ok (ifft n s)

/-- Call semantics of cwt: the source body of cwt contains no validation and
no throw statement, so every call returns a complete result array. -/
def cwtCall (signal scales : List ℝ) (wf : ℝ → ℝ → ℝ) :
    Except CwtError (List (List ℝ)) := Except.ok (cwtMatrix signal scales wf)

/-- The complex value held at index j by a (re, im) array pair. -/
def toC (s : St) : ℕ → ℂ := fun j => (s.1 j : ℂ) + (s.2 j : ℂ) * Complex.I

/-- Complex shadow of swapAt. -/
def cswap (x : ℕ → ℂ) (a b : ℕ) : ℕ → ℂ :=
  fun m => if m = a then x b else if m = b then x a else x m

/-- Complex shadow of the bit-reversal pass. -/
def cBitrev (n : ℕ) (x : ℕ → ℂ) : ℕ → ℂ :=
  (List.range n).foldl
    (fun x i => if i < reverseIndex i n then cswap x i (reverseIndex i n) else x) x

/-- Complex shadow of one butterfly: the pair (tpre, tpim) is exactly
x (j+halfsize) * exp(-(2πk/n) i). -/
def cButterfly (n : ℕ) (k : ℝ) (halfsize j : ℕ) (x : ℕ → ℂ) : ℕ → ℂ :=
  fun m =>
    if m = j + halfsize then
      x j - x (j + halfsize) * Complex.exp (((-(2 * Real.pi * k / (n : ℝ)) : ℝ) : ℂ) * Complex.I)
    else if m = j then
      x j + x (j + halfsize) * Complex.exp (((-(2 * Real.pi * k / (n : ℝ)) : ℝ) : ℂ) * Complex.I)
    else x m

/-- Complex shadow of the fft inner loop. -/
def cInner (n size i : ℕ) (x : ℕ → ℂ) : ℕ → ℂ :=
  (List.range (size / 2)).foldl
    (fun x t => cButterfly n (((t : ℕ) : ℝ) * ((n : ℝ) / (size : ℝ))) (size / 2) (i + t) x) x

/-- Complex shadow of the fft middle loop. -/
def cBlock (n size : ℕ) (x : ℕ → ℂ) : ℕ → ℂ :=
  (List.range ((n + size - 1) / size)).foldl (fun x b => cInner n size (b * size) x) x

/-- The first q butterfly passes (sizes 2^1 .. 2^q). -/
def passesUpTo (n q : ℕ) (x : ℕ → ℂ) : ℕ → ℂ :=
  (List.range q).foldl (fun x s => cBlock n (2 ^ (s + 1)) x) x

/-- Complex shadow of all fft passes. -/
def cPasses (n : ℕ) (x : ℕ → ℂ) : ℕ → ℂ := passesUpTo n (Nat.log2 n) x

/-- Complex shadow of fft. -/
def cfft (n : ℕ) (x : ℕ → ℂ) : ℕ → ℂ := cPasses n (cBitrev n x)

/-- The twiddle factor e^(-2πik/n) used by the butterflies
(cos(2πk/n) - i sin(2πk/n)). -/
def tw (n k : ℕ) : ℂ :=
  Complex.exp (((-(2 * Real.pi * (k : ℝ) / (n : ℝ)) : ℝ) : ℂ) * Complex.I)

/-- The discrete Fourier transform X_k = Σ_j x_j e^(-2πijk/n). -/
def dft (n : ℕ) (x : ℕ → ℂ) (k : ℕ) : ℂ :=
  ∑ j ∈ Finset.range n, x j * tw n (j * k)

/-- A pair of all-zero arrays, used as a concrete input. -/
def zeroState : St := (fun _ => 0, fun _ => 0)

/-- The concrete input state re = [0, 1, 2, 3, ...], im = 0. -/
def rampState : St := (fun j => (j : ℝ), fun _ => 0)

end

theorem reverseIndexGo_acc : ∀ k r i : ℕ, reverseIndexGo k r i = r * 2 ^ k + rev k i
  | 0, r, i => by simp [reverseIndexGo, rev]
  | k + 1, r, i => by
    have h1 : reverseIndexGo (k + 1) r i = reverseIndexGo k (2 * r + i % 2) (i / 2) := rfl
    have h2 : rev (k + 1) i = reverseIndexGo k (2 * 0 + i % 2) (i / 2) := rfl
    rw [h1, h2, reverseIndexGo_acc k (2 * r + i % 2) (i / 2),
      reverseIndexGo_acc k (2 * 0 + i % 2) (i / 2)]
    ring

theorem rev_zero_left (i : ℕ) : rev 0 i = 0 := rfl

theorem rev_succ (k i : ℕ) : rev (k + 1) i = i % 2 * 2 ^ k + rev k (i / 2) := by
  have h2 : rev (k + 1) i = reverseIndexGo k (2 * 0 + i % 2) (i / 2) := rfl
  rw [h2, reverseIndexGo_acc]
  ring

theorem rev_lt : ∀ k i : ℕ, rev k i < 2 ^ k := by
  intro k
  induction k with
  | zero => intro i; simp [rev_zero_left]
  | succ k ih =>
    intro i
    rw [rev_succ, pow_succ]
    have h1 := ih (i / 2)
    rcases Nat.mod_two_eq_zero_or_one i with h | h <;> rw [h] <;> omega

theorem rev_bit_high : ∀ k c b : ℕ, c < 2 ^ k → b < 2 →
    rev (k + 1) (c + b * 2 ^ k) = 2 * rev k c + b := by
  intro k
  induction k with
  | zero =>
    intro c b hc hb
    have hc0 : c = 0 := by omega
    subst hc0
    rw [rev_succ]
    simp [rev_zero_left]
    omega
  | succ k ih =>
    intro c b hc hb
    rw [rev_succ]
    have e1 : c + b * 2 ^ (k + 1) = c + b * 2 ^ k * 2 := by ring
    have e2 : (c + b * 2 ^ (k + 1)) % 2 = c % 2 := by
      rw [e1, Nat.add_mul_mod_self_right]
    have e3 : (c + b * 2 ^ (k + 1)) / 2 = c / 2 + b * 2 ^ k := by
      rw [e1, Nat.add_mul_div_right _ _ (by norm_num : (0:ℕ) < 2)]
    have hcd : c / 2 < 2 ^ k := by
      rw [Nat.div_lt_iff_lt_mul (by norm_num : (0:ℕ) < 2)]
      have : 2 ^ k * 2 = 2 ^ (k + 1) := by ring
      omega
    rw [e2, e3, ih (c / 2) b hcd hb, rev_succ]
    ring

theorem rev_rev : ∀ k i : ℕ, i < 2 ^ k → rev k (rev k i) = i := by
  intro k
  induction k with
  | zero =>
    intro i hi
    have : i = 0 := by simpa using hi
    subst this
    rfl
  | succ k ih =>
    intro i hi
    have hmod : i % 2 < 2 := Nat.mod_lt i (by norm_num)
    have hdiv : i / 2 < 2 ^ k := by
      rw [Nat.div_lt_iff_lt_mul (by norm_num : (0:ℕ) < 2)]
      have : 2 ^ k * 2 = 2 ^ (k + 1) := by ring
      omega
    have hin : rev (k + 1) i = rev k (i / 2) + i % 2 * 2 ^ k := by rw [rev_succ]; ring
    rw [hin, rev_bit_high k (rev k (i / 2)) (i % 2) (rev_lt k (i / 2)) hmod, ih (i / 2) hdiv]
    omega

theorem reverseIndex_two_pow (p i : ℕ) : reverseIndex i (2 ^ p) = rev p i := by
  unfold reverseIndex rev
  rw [Nat.clog_pow 2 p (by norm_num)]

/-- C9: for every power-of-two length n = 2^p and every index i < n, applying
reverseIndex twice returns the original index. -/
theorem reverseIndex_involutive (p i : ℕ) (hi : i < 2 ^ p) :
    reverseIndex (reverseIndex i (2 ^ p)) (2 ^ p) = i := by
  rw [reverseIndex_two_pow, reverseIndex_two_pow]
  exact rev_rev p i hi

/-- Witness for C9 at p = 3, i = 5. -/
theorem reverseIndex_involutive_witness :
    5 < 2 ^ 3 ∧ reverseIndex (reverseIndex 5 (2 ^ 3)) (2 ^ 3) = 5 :=
  ⟨by decide, reverseIndex_involutive 3 5 (by decide)⟩

/-- C8: for N ≥ 1 the padded length 2 ^ ⌈log2 (2N)⌉ computed by cwt is a
power of two, is at least 2N, and is the least power of two ≥ 2N. -/
theorem paddedLength_least_pow_two (N : ℕ) (hN : 1 ≤ N) :
    (∃ k, paddedLength N = 2 ^ k) ∧ 2 * N ≤ paddedLength N ∧
      ∀ k, 2 * N ≤ 2 ^ k → paddedLength N ≤ 2 ^ k := by
  have hN0 : N ≠ 0 := by omega
  have hpl : paddedLength N = 2 ^ Nat.clog 2 (N * 2) := by simp [paddedLength, hN0]
  refine ⟨⟨Nat.clog 2 (N * 2), hpl⟩, ?_, ?_⟩
  · rw [hpl]
    have h := Nat.le_pow_clog (show 1 < 2 by norm_num) (N * 2)
    omega
  · intro k hk
    rw [hpl]
    have hk2 : N * 2 ≤ 2 ^ k := by omega
    have h1 : Nat.clog 2 (N * 2) ≤ k := (Nat.le_pow_iff_clog_le (by norm_num)).mp hk2
    exact Nat.pow_le_pow_right (by norm_num) h1

/-- Witness for C8 at N = 3 (padded length 8). -/
theorem paddedLength_least_pow_two_witness :
    (∃ k, paddedLength 3 = 2 ^ k) ∧ 2 * 3 ≤ paddedLength 3 ∧
      ∀ k, 2 * 3 ≤ 2 ^ k → paddedLength 3 ≤ 2 ^ k :=
  paddedLength_least_pow_two 3 (by norm_num)

theorem foldl_untouched {α : Type} (g : ℕ → (ℕ → α) → (ℕ → α)) (W : ℕ → Finset ℕ)
    (H1 : ∀ e a i, i ∉ W e → g e a i = a i) :
    ∀ (l : List ℕ) (a : ℕ → α) (i : ℕ), (∀ e ∈ l, i ∉ W e) →
      l.foldl (fun a e => g e a) a i = a i := by
  intro l
  induction l with
  | nil => intro a i _; rfl
  | cons e0 l ih =>
    intro a i hout
    rw [List.foldl_cons]
    rw [ih (g e0 a) i (fun e he => hout e (List.mem_cons_of_mem e0 he))]
    exact H1 e0 a i (hout e0 (List.mem_cons_self e0 l))

theorem foldl_owner {α : Type} (g : ℕ → (ℕ → α) → (ℕ → α)) (W : ℕ → Finset ℕ)
    (H1 : ∀ e a i, i ∉ W e → g e a i = a i)
    (H2 : ∀ e a b, (∀ j ∈ W e, a j = b j) → ∀ i ∈ W e, g e a i = g e b i) :
    ∀ l : List ℕ, l.Pairwise (fun x y => Disjoint (W x) (W y)) →
      ∀ (a : ℕ → α) (e : ℕ), e ∈ l → ∀ i ∈ W e,
        l.foldl (fun a e => g e a) a i = g e a i := by
  intro l
  induction l with
  | nil => intro _ a e he; exact absurd he (List.not_mem_nil e)
  | cons e0 l ih =>
    intro hp a e he i hi
    have hhead : ∀ x ∈ l, Disjoint (W e0) (W x) := (List.pairwise_cons.mp hp).1
    have htail : l.Pairwise (fun x y => Disjoint (W x) (W y)) := (List.pairwise_cons.mp hp).2
    rw [List.foldl_cons]
    rcases List.mem_cons.mp he with heq | hel
    · subst heq
      exact foldl_untouched g W H1 l (g e a) i
        (fun x hx => Finset.disjoint_left.mp (hhead x hx) hi)
    · rw [ih htail (g e0 a) e hel i hi]
      exact H2 e (g e0 a) a
        (fun j hj => H1 e0 a j (Finset.disjoint_right.mp (hhead e hel) hj)) i hi

theorem tw_add (n a b : ℕ) : tw n (a + b) = tw n a * tw n b := by
  unfold tw
  rw [← Complex.exp_add]
  congr 1
  push_cast
  ring

theorem tw_pow (n a m : ℕ) : tw n (m * a) = tw n a ^ m := by
  unfold tw
  rw [← Complex.exp_nat_mul]
  congr 1
  push_cast
  ring

theorem tw_zero (n : ℕ) : tw n 0 = 1 := by
  unfold tw
  norm_num [Complex.exp_zero]

theorem tw_self (n : ℕ) (hn : n ≠ 0) : tw n n = 1 := by
  unfold tw
  have hne : (n : ℝ) ≠ 0 := Nat.cast_ne_zero.mpr hn
  have harg : (((-(2 * Real.pi * (n : ℝ) / (n : ℝ))) : ℝ) : ℂ) * Complex.I
      = ((-1 : ℤ) : ℂ) * (2 * (Real.pi : ℂ) * Complex.I) := by
    rw [mul_div_assoc, div_self hne]
    push_cast
    ring
  rw [harg]
  exact Complex.exp_int_mul_two_pi_mul_I (-1)

theorem tw_mul_base (n a : ℕ) (hn : n ≠ 0) : tw n (a * n) = 1 := by
  rw [tw_pow, tw_self n hn, one_pow]

theorem tw_even (m a : ℕ) (hm : m ≠ 0) : tw (2 * m) (2 * a) = tw m a := by
  unfold tw
  congr 2
  have hne : (m : ℝ) ≠ 0 := Nat.cast_ne_zero.mpr hm
  push_cast
  field_simp
  ring

theorem tw_half (m : ℕ) (hm : m ≠ 0) : tw (2 * m) m = -1 := by
  unfold tw
  have hne : (m : ℝ) ≠ 0 := Nat.cast_ne_zero.mpr hm
  have h2 : (2 : ℝ) * (m : ℝ) ≠ 0 := mul_ne_zero two_ne_zero hne
  have hr : -(2 * Real.pi * (m : ℝ) / ((2 * m : ℕ) : ℝ)) = -Real.pi := by
    push_cast
    rw [show (2 : ℝ) * Real.pi * (m : ℝ) = Real.pi * (2 * m) by ring, mul_div_assoc,
      div_self h2, mul_one]
  have harg : (((-(2 * Real.pi * (m : ℝ) / ((2 * m : ℕ) : ℝ))) : ℝ) : ℂ) * Complex.I
      = -((Real.pi : ℂ) * Complex.I) := by
    rw [hr]
    push_cast
    ring
  rw [harg, Complex.exp_neg, Complex.exp_pi_mul_I]
  norm_num

theorem sum_range_even_odd {M : Type} [AddCommMonoid M] :
    ∀ (m : ℕ) (f : ℕ → M),
      ∑ j ∈ Finset.range (2 * m), f j
        = (∑ j ∈ Finset.range m, f (2 * j)) + ∑ j ∈ Finset.range m, f (2 * j + 1) := by
  intro m
  induction m with
  | zero => intro f; simp
  | succ m ih =>
    intro f
    have h2 : 2 * (m + 1) = 2 * m + 1 + 1 := by ring
    rw [h2, Finset.sum_range_succ, Finset.sum_range_succ, ih f, Finset.sum_range_succ,
      Finset.sum_range_succ]
    abel

theorem dft_congr (n : ℕ) (x y : ℕ → ℂ) (k : ℕ) (h : ∀ j, j < n → x j = y j) :
    dft n x k = dft n y k := by
  unfold dft
  exact Finset.sum_congr rfl (fun j hj => by rw [h j (Finset.mem_range.mp hj)])

theorem dft_one (x : ℕ → ℂ) (k : ℕ) : dft 1 x k = x 0 := by
  unfold dft
  rw [Finset.sum_range_one]
  simp [tw_zero]

theorem dft_split (m : ℕ) (hm : m ≠ 0) (x : ℕ → ℂ) (t : ℕ) :
    dft (2 * m) x t
      = dft m (fun j => x (2 * j)) t + tw (2 * m) t * dft m (fun j => x (2 * j + 1)) t := by
  unfold dft
  rw [sum_range_even_odd m (fun j => x j * tw (2 * m) (j * t))]
  congr 1
  · exact Finset.sum_congr rfl (fun j _ => by
      have h1 : 2 * j * t = 2 * (j * t) := by ring
      rw [h1, tw_even m (j * t) hm])
  · rw [Finset.mul_sum]
    exact Finset.sum_congr rfl (fun j _ => by
      have h1 : (2 * j + 1) * t = 2 * (j * t) + t := by ring
      rw [h1, tw_add, tw_even m (j * t) hm]
      ring)

theorem dft_split_shift (m : ℕ) (hm : m ≠ 0) (x : ℕ → ℂ) (t : ℕ) :
    dft (2 * m) x (m + t)
      = dft m (fun j => x (2 * j)) t - tw (2 * m) t * dft m (fun j => x (2 * j + 1)) t := by
  unfold dft
  rw [sum_range_even_odd m (fun j => x j * tw (2 * m) (j * (m + t)))]
  have heven : ∀ j : ℕ, tw (2 * m) (2 * j * (m + t)) = tw m (j * t) := by
    intro j
    have h1 : 2 * j * (m + t) = 2 * (j * m + j * t) := by ring
    rw [h1, tw_even m _ hm, show j * m + j * t = j * m + j * t from rfl, tw_add,
      tw_mul_base m j hm, one_mul]
  have hodd : ∀ j : ℕ, tw (2 * m) ((2 * j + 1) * (m + t))
      = tw m (j * t) * (-(tw (2 * m) t)) := by
    intro j
    have h1 : (2 * j + 1) * (m + t) = 2 * (j * m + j * t) + (m + t) := by ring
    rw [h1, tw_add, tw_even m _ hm, tw_add, tw_add, tw_mul_base m j hm, tw_half m hm]
    ring
  rw [sub_eq_add_neg, Finset.mul_sum]
  congr 1
  · exact Finset.sum_congr rfl (fun j _ => by rw [heven j])
  · rw [← Finset.sum_neg_distrib]
    exact Finset.sum_congr rfl (fun j _ => by rw [hodd j]; ring)

theorem tw_ne_one (n r : ℕ) (hn : n ≠ 0) (hnd : ¬ n ∣ r) : tw n r ≠ 1 := by
  intro h
  unfold tw at h
  rw [Complex.exp_eq_one_iff] at h
  obtain ⟨c, hc⟩ := h
  have hne : (n : ℝ) ≠ 0 := Nat.cast_ne_zero.mpr hn
  have hcI : ((-(2 * Real.pi * (r : ℝ) / (n : ℝ)) : ℝ) : ℂ) * Complex.I
      = ((c : ℂ) * (2 * (Real.pi : ℂ))) * Complex.I := by
    rw [hc]; ring
  have hC : ((-(2 * Real.pi * (r : ℝ) / (n : ℝ)) : ℝ) : ℂ)
      = (c : ℂ) * (2 * (Real.pi : ℂ)) := mul_right_cancel₀ Complex.I_ne_zero hcI
  have hA : -(2 * Real.pi * (r : ℝ) / (n : ℝ)) = (c : ℝ) * (2 * Real.pi) := by
    exact_mod_cast hC
  have h2 : (2 * Real.pi) * ((r : ℝ) / (n : ℝ)) = (2 * Real.pi) * (-(c : ℝ)) := by
    linear_combination -hA
  have hpi : (2 * Real.pi) ≠ 0 := by positivity
  have h3 : (r : ℝ) / (n : ℝ) = -(c : ℝ) := mul_left_cancel₀ hpi h2
  rw [div_eq_iff hne] at h3
  have h5 : (r : ℤ) = -c * n := by exact_mod_cast h3
  exact hnd (Int.natCast_dvd_natCast.mp ⟨-c, by rw [h5]; ring⟩)

theorem tw_geom (n r : ℕ) (hn : n ≠ 0) :
    ∑ k ∈ Finset.range n, tw n (k * r) = if n ∣ r then (n : ℂ) else 0 := by
  by_cases hd : n ∣ r
  · rw [if_pos hd]
    have hone : ∀ k ∈ Finset.range n, tw n (k * r) = 1 := by
      intro k _
      obtain ⟨c, rfl⟩ := hd
      have h1 : k * (n * c) = k * c * n := by ring
      rw [h1, tw_mul_base n (k * c) hn]
    rw [Finset.sum_congr rfl hone]
    simp
  · rw [if_neg hd]
    have hz : tw n r ≠ 1 := tw_ne_one n r hn hd
    have hsum : ∀ k ∈ Finset.range n, tw n (k * r) = tw n r ^ k := by
      intro k _
      rw [← tw_pow n r k]
    rw [Finset.sum_congr rfl hsum, geom_sum_eq hz]
    have hzn : tw n r ^ n = 1 := by
      rw [← tw_pow n r n, show n * r = r * n from by ring, tw_mul_base n r hn]
    rw [hzn]
    simp

theorem dft_dft (n : ℕ) (hn : n ≠ 0) (x : ℕ → ℂ) (m : ℕ) (hm : m < n) :
    dft n (dft n x) m = (n : ℂ) * x ((n - m) % n) := by
  unfold dft
  have h1 : ∀ k ∈ Finset.range n,
      (∑ j ∈ Finset.range n, x j * tw n (j * k)) * tw n (k * m)
        = ∑ j ∈ Finset.range n, x j * tw n (k * (j + m)) := by
    intro k _
    rw [Finset.sum_mul]
    refine Finset.sum_congr rfl (fun j _ => ?_)
    rw [mul_assoc, ← tw_add]
    congr 2
    ring
  rw [Finset.sum_congr rfl h1, Finset.sum_comm]
  have h2 : ∀ j ∈ Finset.range n,
      (∑ k ∈ Finset.range n, x j * tw n (k * (j + m)))
        = x j * (if n ∣ (j + m) then (n : ℂ) else 0) := by
    intro j _
    rw [← Finset.mul_sum, tw_geom n (j + m) hn]
  rw [Finset.sum_congr rfl h2]
  have hj0lt : (n - m) % n < n := Nat.mod_lt _ (Nat.pos_of_ne_zero hn)
  have hzero : ∀ b ∈ Finset.range n, b ≠ (n - m) % n
      → x b * (if n ∣ (b + m) then (n : ℂ) else 0) = 0 := by
    intro b hb hbne
    have hblt : b < n := Finset.mem_range.mp hb
    have hnd : ¬ n ∣ (b + m) := by
      intro hdd
      obtain ⟨c, hc⟩ := hdd
      have hc2 : c < 2 := by
        have hlt : n * c < n * 2 := by omega
        exact Nat.lt_of_mul_lt_mul_left hlt
      interval_cases c
      · have hb0 : b = 0 := by omega
        have hm0 : m = 0 := by omega
        exact hbne (by simp [hb0, hm0, Nat.mod_self])
      · have hmpos : 0 < m := by omega
        have hj0v : (n - m) % n = n - m := Nat.mod_eq_of_lt (by omega)
        exact hbne (by omega)
    rw [if_neg hnd, mul_zero]
  have hout : (n - m) % n ∉ Finset.range n
      → x ((n - m) % n) * (if n ∣ ((n - m) % n + m) then (n : ℂ) else 0) = 0 := by
    intro hcon
    exact absurd (Finset.mem_range.mpr hj0lt) hcon
  rw [Finset.sum_eq_single ((n - m) % n) hzero hout]
  have hdvd : n ∣ ((n - m) % n + m) := by
    rcases Nat.eq_zero_or_pos m with hm0 | hmpos
    · subst hm0
      simp [Nat.mod_self]
    · have hj0v : (n - m) % n = n - m := Nat.mod_eq_of_lt (by omega)
      rw [hj0v, show n - m + m = n from by omega]
  rw [if_pos hdvd]
  ring

theorem cButterfly_outside (n : ℕ) (k : ℝ) (h j m : ℕ) (x : ℕ → ℂ)
    (hm1 : m ≠ j + h) (hm2 : m ≠ j) : cButterfly n k h j x m = x m := by
  unfold cButterfly
  rw [if_neg hm1, if_neg hm2]

theorem cButterfly_reads (n : ℕ) (k : ℝ) (h j : ℕ) (x y : ℕ → ℂ)
    (hj : x j = y j) (hjh : x (j + h) = y (j + h)) :
    ∀ m, m = j ∨ m = j + h → cButterfly n k h j x m = cButterfly n k h j y m := by
  intro m hm
  unfold cButterfly
  by_cases h1 : m = j + h
  · rw [if_pos h1, if_pos h1, hj, hjh]
  · rcases hm with hmj | hmjh
    · rw [if_neg h1, if_neg h1, if_pos hmj, if_pos hmj, hj, hjh]
    · exact absurd hmjh h1

theorem cInner_outside (n size i : ℕ) (x : ℕ → ℂ) (m : ℕ)
    (hm : ∀ t, t < size / 2 → m ≠ i + t ∧ m ≠ i + t + size / 2) :
    cInner n size i x m = x m := by
  unfold cInner
  refine foldl_untouched
    (fun t => cButterfly n (((t : ℕ) : ℝ) * ((n : ℝ) / (size : ℝ))) (size / 2) (i + t))
    (fun t => ({i + t, i + t + size / 2} : Finset ℕ))
    ?_ (List.range (size / 2)) x m ?_
  · intro e a p hp
    simp only [Finset.mem_insert, Finset.mem_singleton] at hp
    push_neg at hp
    exact cButterfly_outside n _ (size / 2) (i + e) p a hp.2 hp.1
  · intro e he
    have het : e < size / 2 := List.mem_range.mp he
    simp only [Finset.mem_insert, Finset.mem_singleton]
    push_neg
    exact hm e het

theorem cInner_congrOn (n size i : ℕ) (hsz : size / 2 + size / 2 = size)
    (x y : ℕ → ℂ) (hxy : ∀ m, i ≤ m → m < i + size → x m = y m) :
    ∀ m, i ≤ m → m < i + size → cInner n size i x m = cInner n size i y m := by
  unfold cInner
  suffices hgen : ∀ (l : List ℕ), (∀ t ∈ l, t < size / 2) →
      ∀ (x y : ℕ → ℂ), (∀ m, i ≤ m → m < i + size → x m = y m) →
      ∀ m, i ≤ m → m < i + size →
        l.foldl (fun x t =>
          cButterfly n (((t : ℕ) : ℝ) * ((n : ℝ) / (size : ℝ))) (size / 2) (i + t) x) x m
          = l.foldl (fun x t =>
            cButterfly n (((t : ℕ) : ℝ) * ((n : ℝ) / (size : ℝ))) (size / 2) (i + t) x) y m by
    exact hgen (List.range (size / 2)) (fun t ht => List.mem_range.mp ht) x y hxy
  intro l
  induction l with
  | nil => intro _ x y hxy m hm1 hm2; exact hxy m hm1 hm2
  | cons t l ih =>
    intro hlt x y hxy m hm1 hm2
    rw [List.foldl_cons, List.foldl_cons]
    have ht : t < size / 2 := hlt t (List.mem_cons_self t l)
    refine ih (fun u hu => hlt u (List.mem_cons_of_mem t hu)) _ _ ?_ m hm1 hm2
    intro p hp1 hp2
    by_cases hcase : p = i + t + size / 2
    · refine cButterfly_reads n _ (size / 2) (i + t) x y ?_ ?_ p (Or.inr hcase)
      · exact hxy (i + t) (by omega) (by omega)
      · exact hxy (i + t + size / 2) (by omega) (by omega)
    · by_cases hcase2 : p = i + t
      · refine cButterfly_reads n _ (size / 2) (i + t) x y ?_ ?_ p (Or.inl hcase2)
        · exact hxy (i + t) (by omega) (by omega)
        · exact hxy (i + t + size / 2) (by omega) (by omega)
      · rw [cButterfly_outside n _ (size / 2) (i + t) p x hcase hcase2,
          cButterfly_outside n _ (size / 2) (i + t) p y hcase hcase2]
        exact hxy p hp1 hp2

theorem cInner_apply (n size i t : ℕ) (hsz : size / 2 + size / 2 = size) (ht : t < size / 2)
    (x : ℕ → ℂ) (m : ℕ) (hm : m = i + t ∨ m = i + t + size / 2) :
    cInner n size i x m
      = cButterfly n (((t : ℕ) : ℝ) * ((n : ℝ) / (size : ℝ))) (size / 2) (i + t) x m := by
  unfold cInner
  refine foldl_owner
    (fun t => cButterfly n (((t : ℕ) : ℝ) * ((n : ℝ) / (size : ℝ))) (size / 2) (i + t))
    (fun t => ({i + t, i + t + size / 2} : Finset ℕ))
    ?_ ?_ (List.range (size / 2)) ?_ x t (List.mem_range.mpr ht) m ?_
  · intro e a p hp
    simp only [Finset.mem_insert, Finset.mem_singleton] at hp
    push_neg at hp
    exact cButterfly_outside n _ (size / 2) (i + e) p a hp.2 hp.1
  · intro e a b hab p hp
    simp only [Finset.mem_insert, Finset.mem_singleton] at hp
    refine cButterfly_reads n _ (size / 2) (i + e) a b ?_ ?_ p ?_
    · exact hab (i + e) (by simp)
    · exact hab (i + e + size / 2) (by simp)
    · tauto
  · rw [List.pairwise_iff_getElem]
    intro a b ha hb hab
    rw [List.length_range] at ha hb
    rw [List.getElem_range, List.getElem_range]
    rw [Finset.disjoint_left]
    intro p hpa hpb
    simp only [Finset.mem_insert, Finset.mem_singleton] at hpa hpb
    omega
  · simp only [Finset.mem_insert, Finset.mem_singleton]
    tauto

theorem ceil_div_eq_div (n size : ℕ) (hpos : 0 < size) (hdvd : size ∣ n) :
    (n + size - 1) / size = n / size := by
  obtain ⟨c, rfl⟩ := hdvd
  rw [Nat.mul_div_cancel_left c hpos]
  have h1 : size * c + size - 1 = size * c + (size - 1) := by omega
  rw [h1, Nat.mul_add_div hpos, Nat.div_eq_of_lt (by omega : size - 1 < size)]
  omega

theorem cBlock_inner (n size : ℕ) (hsz : size / 2 + size / 2 = size) (hpos : 0 < size)
    (hdvd : size ∣ n) (a : ℕ → ℂ) (i : ℕ) (hi : i < n) :
    cBlock n size a i = cInner n size (i / size * size) a i := by
  unfold cBlock
  rw [ceil_div_eq_div n size hpos hdvd]
  refine foldl_owner
    (fun b => cInner n size (b * size))
    (fun b => Finset.Ico (b * size) (b * size + size))
    ?_ ?_ (List.range (n / size)) ?_ a (i / size) ?_ i ?_
  · intro e x p hp
    simp only [Finset.mem_Ico, not_and, not_lt] at hp
    refine cInner_outside n size (e * size) x p ?_
    intro t htlt
    by_cases hple : e * size ≤ p
    · have hp2 := hp hple
      constructor <;> omega
    · push_neg at hple
      constructor <;> omega
  · intro e x y hxy p hp
    rw [Finset.mem_Ico] at hp
    exact cInner_congrOn n size (e * size) hsz x y
      (fun m hm1 hm2 => hxy m (Finset.mem_Ico.mpr ⟨hm1, hm2⟩)) p hp.1 hp.2
  · refine List.Pairwise.imp ?_ (List.pairwise_lt_range (n / size))
    intro a b hab
    rw [Finset.disjoint_left]
    intro p hpa hpb
    rw [Finset.mem_Ico] at hpa hpb
    have hmul : (a + 1) * size ≤ b * size := Nat.mul_le_mul_right size (by omega)
    have hdist : (a + 1) * size = a * size + size := by ring
    omega
  · refine List.mem_range.mpr ?_
    obtain ⟨c, rfl⟩ := hdvd
    rw [Nat.mul_div_cancel_left c hpos]
    rw [Nat.div_lt_iff_lt_mul hpos]
    have hcomm : c * size = size * c := Nat.mul_comm c size
    omega
  · rw [Finset.mem_Ico]
    have h1 := Nat.div_add_mod i size
    have h2 : i % size < size := Nat.mod_lt i hpos
    have hcomm : size * (i / size) = i / size * size := Nat.mul_comm size (i / size)
    omega

theorem cexp_tw (n size t : ℕ) (hn : (n : ℝ) ≠ 0) (hs : (size : ℝ) ≠ 0) :
    Complex.exp ((((-(2 * Real.pi * (((t : ℕ) : ℝ) * ((n : ℝ) / (size : ℝ))) / (n : ℝ))) : ℝ) : ℂ)
      * Complex.I) = tw size t := by
  unfold tw
  have key : -(2 * Real.pi * (((t : ℕ) : ℝ) * ((n : ℝ) / (size : ℝ))) / (n : ℝ))
      = -(2 * Real.pi * ((t : ℕ) : ℝ) / (size : ℝ)) := by
    have hc : (n : ℝ) / (size : ℝ) * (size : ℝ) = (n : ℝ) := div_mul_cancel₀ (n : ℝ) hs
    field_simp
    ring
  rw [key]

theorem cBlock_apply (p q : ℕ) (hq : q + 1 ≤ p) (a : ℕ → ℂ) (i : ℕ) (hi : i < 2 ^ p) :
    cBlock (2 ^ p) (2 ^ (q + 1)) a i =
      if i % 2 ^ (q + 1) < 2 ^ q
      then a i + a (i + 2 ^ q) * tw (2 ^ (q + 1)) (i % 2 ^ (q + 1))
      else a (i - 2 ^ q) - a i * tw (2 ^ (q + 1)) (i % 2 ^ (q + 1) - 2 ^ q) := by
  have hexp : (2 : ℕ) ^ (q + 1) = 2 ^ q * 2 := pow_succ 2 q
  have hhalf : 2 ^ (q + 1) / 2 = 2 ^ q := by omega
  have hsz : 2 ^ (q + 1) / 2 + 2 ^ (q + 1) / 2 = 2 ^ (q + 1) := by omega
  have hpos : 0 < 2 ^ (q + 1) := pow_pos (by norm_num) (q + 1)
  have hq0 : 0 < 2 ^ q := pow_pos (by norm_num) q
  have hdvd : 2 ^ (q + 1) ∣ 2 ^ p := pow_dvd_pow 2 hq
  have hn : ((2 ^ p : ℕ) : ℝ) ≠ 0 := by positivity
  have hs : ((2 ^ (q + 1) : ℕ) : ℝ) ≠ 0 := by positivity
  have hdm := Nat.div_add_mod i (2 ^ (q + 1))
  have hml : i % 2 ^ (q + 1) < 2 ^ (q + 1) := Nat.mod_lt i hpos
  have hcm : 2 ^ (q + 1) * (i / 2 ^ (q + 1)) = i / 2 ^ (q + 1) * 2 ^ (q + 1) :=
    Nat.mul_comm _ _
  rw [cBlock_inner (2 ^ p) (2 ^ (q + 1)) hsz hpos hdvd a i hi]
  by_cases hr : i % 2 ^ (q + 1) < 2 ^ q
  · rw [if_pos hr]
    rw [cInner_apply (2 ^ p) (2 ^ (q + 1)) (i / 2 ^ (q + 1) * 2 ^ (q + 1)) (i % 2 ^ (q + 1))
      hsz (by omega) a i (Or.inl (by omega))]
    unfold cButterfly
    rw [if_neg (by omega), if_pos (by omega)]
    rw [cexp_tw (2 ^ p) (2 ^ (q + 1)) (i % 2 ^ (q + 1)) hn hs]
    rw [show i / 2 ^ (q + 1) * 2 ^ (q + 1) + i % 2 ^ (q + 1) = i from by omega, hhalf]
  · rw [if_neg hr]
    rw [cInner_apply (2 ^ p) (2 ^ (q + 1)) (i / 2 ^ (q + 1) * 2 ^ (q + 1))
      (i % 2 ^ (q + 1) - 2 ^ q) hsz (by omega) a i (Or.inr (by omega))]
    unfold cButterfly
    rw [if_pos (by omega)]
    rw [cexp_tw (2 ^ p) (2 ^ (q + 1)) (i % 2 ^ (q + 1) - 2 ^ q) hn hs]
    rw [show i / 2 ^ (q + 1) * 2 ^ (q + 1) + (i % 2 ^ (q + 1) - 2 ^ q) = i - 2 ^ q from by omega]
    rw [hhalf, show i - 2 ^ q + 2 ^ q = i from by omega]

theorem passes_stage (p : ℕ) (x : ℕ → ℂ) :
    ∀ q, q ≤ p → ∀ a : ℕ → ℂ, (∀ j, j < 2 ^ p → a j = x (rev p j)) →
      ∀ i, i < 2 ^ p →
        passesUpTo (2 ^ p) q a i
          = dft (2 ^ q) (fun m => x (rev (p - q) (i / 2 ^ q) + m * 2 ^ (p - q)))
              (i % 2 ^ q) := by
  intro q
  induction q with
  | zero =>
    intro _ a ha i hi
    have h0 : passesUpTo (2 ^ p) 0 a = a := rfl
    rw [h0]
    simp only [pow_zero, Nat.sub_zero, Nat.div_one, Nat.mod_one]
    rw [dft_one, ha i hi]
    norm_num
  | succ q ih =>
    intro hq a ha i hi
    have hqp : q ≤ p := by omega
    have hK : p - q = (p - (q + 1)) + 1 := by omega
    have hexp : (2 : ℕ) ^ (q + 1) = 2 ^ q * 2 := pow_succ 2 q
    have hexp2 : (2 : ℕ) ^ (q + 1) = 2 * 2 ^ q := by rw [hexp]; ring
    have hpos : 0 < 2 ^ (q + 1) := pow_pos (by norm_num) (q + 1)
    have hq0 : 0 < 2 ^ q := pow_pos (by norm_num) q
    have hne : (2 : ℕ) ^ q ≠ 0 := by positivity
    have hpq2 : (2 : ℕ) ^ (p - q) = 2 ^ (p - (q + 1)) * 2 := by rw [hK, pow_succ]
    have hstep : passesUpTo (2 ^ p) (q + 1) a
        = cBlock (2 ^ p) (2 ^ (q + 1)) (passesUpTo (2 ^ p) q a) := by
      unfold passesUpTo
      rw [List.range_succ, List.foldl_append, List.foldl_cons, List.foldl_nil]
    rw [hstep, cBlock_apply p q hq (passesUpTo (2 ^ p) q a) i hi]
    have hdm := Nat.div_add_mod i (2 ^ (q + 1))
    set B := i / 2 ^ (q + 1) with hB
    set r := i % 2 ^ (q + 1) with hrdef
    have hml : r < 2 ^ (q + 1) := Nat.mod_lt i hpos
    have hlink : 2 ^ (q + 1) * B = 2 ^ q * (2 * B) := by rw [hexp]; ring
    have hC : 2 ^ p = 2 ^ (q + 1) * 2 ^ (p - (q + 1)) := by
      rw [← pow_add]
      congr 1
      omega
    have hBC : B < 2 ^ (p - (q + 1)) := by
      rw [hB, Nat.div_lt_iff_lt_mul hpos]
      calc i < 2 ^ p := hi
        _ = 2 ^ (q + 1) * 2 ^ (p - (q + 1)) := hC
        _ = 2 ^ (p - (q + 1)) * 2 ^ (q + 1) := by ring
    have revA : rev (p - q) (2 * B) = rev (p - (q + 1)) B := by
      rw [hK, rev_succ]
      have h1 : (2 * B) % 2 = 0 := by omega
      have h2 : (2 * B) / 2 = B := by omega
      rw [h1, h2]
      simp
    have revB : rev (p - q) (2 * B + 1) = 2 ^ (p - (q + 1)) + rev (p - (q + 1)) B := by
      rw [hK, rev_succ]
      have h1 : (2 * B + 1) % 2 = 1 := by omega
      have h2 : (2 * B + 1) / 2 = B := by omega
      rw [h1, h2]
      ring
    have hlink2 : 2 ^ q * (2 * B + 1) = 2 ^ q * (2 * B) + 2 ^ q := by ring
    by_cases hr : r < 2 ^ q
    · rw [if_pos hr]
      have hi_eq : i = r + 2 ^ q * (2 * B) := by omega
      have div1 : i / 2 ^ q = 2 * B := by
        rw [hi_eq, Nat.add_mul_div_left r (2 * B) hq0, Nat.div_eq_of_lt hr]
        omega
      have mod1 : i % 2 ^ q = r := by
        rw [hi_eq, Nat.add_mul_mod_self_left, Nat.mod_eq_of_lt hr]
      have hi2_eq : i + 2 ^ q = r + 2 ^ q * (2 * B + 1) := by rw [hi_eq]; ring
      have div2 : (i + 2 ^ q) / 2 ^ q = 2 * B + 1 := by
        rw [hi2_eq, Nat.add_mul_div_left r (2 * B + 1) hq0, Nat.div_eq_of_lt hr]
        omega
      have mod2 : (i + 2 ^ q) % 2 ^ q = r := by
        rw [hi2_eq, Nat.add_mul_mod_self_left, Nat.mod_eq_of_lt hr]
      have hi2lt : i + 2 ^ q < 2 ^ p := by
        have h5 : 2 ^ q * (2 * B + 1) + 2 ^ q = 2 ^ q * (2 * (B + 1)) := by ring
        have h3 : 2 ^ q * (2 * (B + 1)) = 2 ^ (q + 1) * (B + 1) := by rw [hexp]; ring
        have h4 : 2 ^ (q + 1) * (B + 1) ≤ 2 ^ (q + 1) * 2 ^ (p - (q + 1)) :=
          Nat.mul_le_mul_left _ (by omega)
        omega
      have ihi := ih hqp a ha i hi
      have ihi2 := ih hqp a ha (i + 2 ^ q) hi2lt
      rw [div1, mod1, revA] at ihi
      rw [div2, mod2, revB] at ihi2
      rw [ihi, ihi2, hexp2, dft_split (2 ^ q) hne _ r]
      have heven : dft (2 ^ q) (fun m => x (rev (p - (q + 1)) B + m * 2 ^ (p - q))) r
          = dft (2 ^ q)
              (fun j => x (rev (p - (q + 1)) B + 2 * j * 2 ^ (p - (q + 1)))) r := by
        refine dft_congr _ _ _ _ (fun j _ => ?_)
        congr 1
        rw [hpq2]
        ring
      have hodd : dft (2 ^ q)
            (fun m => x (2 ^ (p - (q + 1)) + rev (p - (q + 1)) B + m * 2 ^ (p - q))) r
          = dft (2 ^ q)
              (fun j => x (rev (p - (q + 1)) B + (2 * j + 1) * 2 ^ (p - (q + 1)))) r := by
        refine dft_congr _ _ _ _ (fun j _ => ?_)
        congr 1
        rw [hpq2]
        ring
      rw [heven, hodd]
      ring
    · rw [if_neg hr]
      obtain ⟨t, ht⟩ : ∃ t, r = 2 ^ q + t := ⟨r - 2 ^ q, by omega⟩
      have htlt : t < 2 ^ q := by omega
      have hi_eq : i = t + 2 ^ q * (2 * B + 1) := by omega
      have div1 : i / 2 ^ q = 2 * B + 1 := by
        rw [hi_eq, Nat.add_mul_div_left t (2 * B + 1) hq0, Nat.div_eq_of_lt htlt]
        omega
      have mod1 : i % 2 ^ q = t := by
        rw [hi_eq, Nat.add_mul_mod_self_left, Nat.mod_eq_of_lt htlt]
      have hi2_eq : i - 2 ^ q = t + 2 ^ q * (2 * B) := by omega
      have div2 : (i - 2 ^ q) / 2 ^ q = 2 * B := by
        rw [hi2_eq, Nat.add_mul_div_left t (2 * B) hq0, Nat.div_eq_of_lt htlt]
        omega
      have mod2 : (i - 2 ^ q) % 2 ^ q = t := by
        rw [hi2_eq, Nat.add_mul_mod_self_left, Nat.mod_eq_of_lt htlt]
      have hi2lt : i - 2 ^ q < 2 ^ p := by omega
      have ihi := ih hqp a ha i hi
      have ihi2 := ih hqp a ha (i - 2 ^ q) hi2lt
      rw [div1, mod1, revB] at ihi
      rw [div2, mod2, revA] at ihi2
      rw [ihi, ihi2, ht]
      simp only [Nat.add_sub_cancel_left]
      rw [hexp2, dft_split_shift (2 ^ q) hne _ t]
      have heven : dft (2 ^ q) (fun m => x (rev (p - (q + 1)) B + m * 2 ^ (p - q))) t
          = dft (2 ^ q)
              (fun j => x (rev (p - (q + 1)) B + 2 * j * 2 ^ (p - (q + 1)))) t := by
        refine dft_congr _ _ _ _ (fun j _ => ?_)
        congr 1
        rw [hpq2]
        ring
      have hodd : dft (2 ^ q)
            (fun m => x (2 ^ (p - (q + 1)) + rev (p - (q + 1)) B + m * 2 ^ (p - q))) t
          = dft (2 ^ q)
              (fun j => x (rev (p - (q + 1)) B + (2 * j + 1) * 2 ^ (p - (q + 1)))) t := by
        refine dft_congr _ _ _ _ (fun j _ => ?_)
        congr 1
        rw [hpq2]
        ring
      rw [heven, hodd]
      ring

theorem cBitrev_apply (p : ℕ) (x : ℕ → ℂ) (i : ℕ) (hi : i < 2 ^ p) :
    cBitrev (2 ^ p) x i = x (rev p i) := by
  unfold cBitrev
  have hH1 : ∀ (e : ℕ) (a : ℕ → ℂ) (m : ℕ),
      m ∉ (if e < reverseIndex e (2 ^ p)
            then ({e, reverseIndex e (2 ^ p)} : Finset ℕ) else ∅) →
      (if e < reverseIndex e (2 ^ p) then cswap a e (reverseIndex e (2 ^ p)) else a) m
        = a m := by
    intro e a m hm
    by_cases hact : e < reverseIndex e (2 ^ p)
    · simp only [if_pos hact, Finset.mem_insert, Finset.mem_singleton] at hm
      push_neg at hm
      simp only [if_pos hact]
      unfold cswap
      rw [if_neg hm.1, if_neg hm.2]
    · simp only [if_neg hact]
  have hH2 : ∀ (e : ℕ) (a b : ℕ → ℂ),
      (∀ m ∈ (if e < reverseIndex e (2 ^ p)
            then ({e, reverseIndex e (2 ^ p)} : Finset ℕ) else ∅), a m = b m) →
      ∀ m ∈ (if e < reverseIndex e (2 ^ p)
            then ({e, reverseIndex e (2 ^ p)} : Finset ℕ) else ∅),
        (if e < reverseIndex e (2 ^ p) then cswap a e (reverseIndex e (2 ^ p)) else a) m
          = (if e < reverseIndex e (2 ^ p) then cswap b e (reverseIndex e (2 ^ p)) else b) m := by
    intro e a b hab m hm
    by_cases hact : e < reverseIndex e (2 ^ p)
    · have hae : a e = b e := hab e (by simp only [if_pos hact]; simp)
      have har : a (reverseIndex e (2 ^ p)) = b (reverseIndex e (2 ^ p)) :=
        hab _ (by simp only [if_pos hact]; simp)
      simp only [if_pos hact, Finset.mem_insert, Finset.mem_singleton] at hm
      simp only [if_pos hact]
      unfold cswap
      by_cases h1 : m = e
      · rw [if_pos h1, if_pos h1, har]
      · rw [if_neg h1, if_neg h1]
        have h2 : m = reverseIndex e (2 ^ p) := by tauto
        rw [if_pos h2, if_pos h2, hae]
    · simp only [if_neg hact] at hm
      exact absurd hm (Finset.not_mem_empty m)
  have hpair : (List.range (2 ^ p)).Pairwise (fun e f =>
      Disjoint (if e < reverseIndex e (2 ^ p)
          then ({e, reverseIndex e (2 ^ p)} : Finset ℕ) else ∅)
        (if f < reverseIndex f (2 ^ p)
          then ({f, reverseIndex f (2 ^ p)} : Finset ℕ) else ∅)) := by
    rw [List.pairwise_iff_getElem]
    intro a b ha hb hab
    rw [List.length_range] at ha hb
    rw [List.getElem_range, List.getElem_range]
    by_cases hacta : a < reverseIndex a (2 ^ p)
    · by_cases hactb : b < reverseIndex b (2 ^ p)
      · rw [if_pos hacta, if_pos hactb]
        rw [reverseIndex_two_pow] at hacta hactb
        rw [Finset.disjoint_left]
        intro c hca hcb
        simp only [Finset.mem_insert, Finset.mem_singleton, reverseIndex_two_pow] at hca hcb
        have hra : rev p (rev p a) = a := rev_rev p a ha
        have hrb : rev p (rev p b) = b := rev_rev p b hb
        rcases hca with h1 | h1 <;> rcases hcb with h2 | h2
        · omega
        · have h3 : rev p a = b := by rw [← h1, h2]; exact hrb
          omega
        · have h3 : rev p b = a := by rw [← h2, h1]; exact hra
          omega
        · have h3 : a = b := by rw [← hra, ← hrb, ← h1, ← h2]
          omega
      · rw [if_neg hactb]
        exact Finset.disjoint_empty_right _
    · rw [if_neg hacta]
      exact Finset.disjoint_empty_left _
  rcases Nat.lt_trichotomy i (reverseIndex i (2 ^ p)) with hlt | heq | hgt
  · have hmem : i ∈ (if i < reverseIndex i (2 ^ p)
        then ({i, reverseIndex i (2 ^ p)} : Finset ℕ) else ∅) := by
      simp only [if_pos hlt]
      simp
    have happ := foldl_owner
      (fun e a => if e < reverseIndex e (2 ^ p)
        then cswap a e (reverseIndex e (2 ^ p)) else a)
      (fun e => if e < reverseIndex e (2 ^ p)
        then ({e, reverseIndex e (2 ^ p)} : Finset ℕ) else ∅)
      hH1 hH2 (List.range (2 ^ p)) hpair x i (List.mem_range.mpr hi) i hmem
    rw [happ]
    beta_reduce
    rw [if_pos hlt]
    unfold cswap
    rw [if_pos rfl, reverseIndex_two_pow]
  · have hnotin : ∀ e ∈ List.range (2 ^ p),
        i ∉ (if e < reverseIndex e (2 ^ p)
          then ({e, reverseIndex e (2 ^ p)} : Finset ℕ) else ∅) := by
      intro e he
      have helt : e < 2 ^ p := List.mem_range.mp he
      by_cases hact : e < reverseIndex e (2 ^ p)
      · simp only [if_pos hact, Finset.mem_insert, Finset.mem_singleton]
        push_neg
        rw [reverseIndex_two_pow] at hact ⊢
        rw [reverseIndex_two_pow] at heq
        constructor
        · intro hcon
          subst hcon
          omega
        · intro hcon
          have h3 : rev p i = rev p (rev p e) := by rw [hcon]
          rw [rev_rev p e helt] at h3
          omega
      · simp only [if_neg hact]
        exact Finset.not_mem_empty i
    have huntouched := foldl_untouched
      (fun e a => if e < reverseIndex e (2 ^ p)
        then cswap a e (reverseIndex e (2 ^ p)) else a)
      (fun e => if e < reverseIndex e (2 ^ p)
        then ({e, reverseIndex e (2 ^ p)} : Finset ℕ) else ∅)
      hH1 (List.range (2 ^ p)) x i hnotin
    rw [reverseIndex_two_pow] at heq
    rw [huntouched, ← heq]
  · have hrlt : reverseIndex i (2 ^ p) < 2 ^ p := by
      rw [reverseIndex_two_pow]
      exact rev_lt p i
    have hrr : reverseIndex (reverseIndex i (2 ^ p)) (2 ^ p) = i := by
      rw [reverseIndex_two_pow, reverseIndex_two_pow, rev_rev p i hi]
    have hract : reverseIndex i (2 ^ p) < reverseIndex (reverseIndex i (2 ^ p)) (2 ^ p) := by
      rw [hrr]
      exact hgt
    have hmem : i ∈ (if reverseIndex i (2 ^ p)
          < reverseIndex (reverseIndex i (2 ^ p)) (2 ^ p)
        then ({reverseIndex i (2 ^ p),
          reverseIndex (reverseIndex i (2 ^ p)) (2 ^ p)} : Finset ℕ) else ∅) := by
      simp only [if_pos hract, Finset.mem_insert, Finset.mem_singleton]
      right
      rw [hrr]
    have happ := foldl_owner
      (fun e a => if e < reverseIndex e (2 ^ p)
        then cswap a e (reverseIndex e (2 ^ p)) else a)
      (fun e => if e < reverseIndex e (2 ^ p)
        then ({e, reverseIndex e (2 ^ p)} : Finset ℕ) else ∅)
      hH1 hH2 (List.range (2 ^ p)) hpair x (reverseIndex i (2 ^ p))
      (List.mem_range.mpr hrlt) i hmem
    rw [happ]
    beta_reduce
    rw [if_pos hract]
    unfold cswap
    rw [hrr]
    rw [if_neg (by omega), if_pos rfl, reverseIndex_two_pow]

theorem cfft_dft (p : ℕ) (x : ℕ → ℂ) (k : ℕ) (hk : k < 2 ^ p) :
    cfft (2 ^ p) x k = dft (2 ^ p) x k := by
  unfold cfft cPasses
  have hlog : Nat.log2 (2 ^ p) = p := by
    rw [Nat.log2_eq_log_two]
    exact Nat.log_pow (by norm_num) p
  rw [hlog]
  rw [passes_stage p x p (le_refl p) (cBitrev (2 ^ p) x)
    (fun j hj => cBitrev_apply p x j hj) k hk]
  have h2 : k % 2 ^ p = k := Nat.mod_eq_of_lt hk
  rw [h2]
  refine dft_congr _ _ _ _ (fun j _ => ?_)
  rw [Nat.div_eq_of_lt hk]
  simp [rev_zero_left, Nat.sub_self]

theorem euler_neg (θ : ℝ) :
    Complex.exp (((-θ : ℝ) : ℂ) * Complex.I)
      = ((Real.cos θ : ℝ) : ℂ) - ((Real.sin θ : ℝ) : ℂ) * Complex.I := by
  rw [Complex.exp_mul_I, ← Complex.ofReal_cos, ← Complex.ofReal_sin]
  rw [Real.cos_neg, Real.sin_neg]
  push_cast
  ring

theorem toC_butterfly (n : ℕ) (k : ℝ) (h j : ℕ) (s : St) :
    toC (butterfly n k h j s) = cButterfly n k h j (toC s) := by
  funext m
  simp only [butterfly, cButterfly, toC]
  rw [euler_neg (2 * Real.pi * k / (n : ℝ))]
  by_cases h1 : m = j + h
  · rw [if_pos h1, if_pos h1, if_pos h1]
    apply Complex.ext <;>
      simp [Complex.add_re, Complex.add_im, Complex.sub_re, Complex.sub_im, Complex.mul_re,
        Complex.mul_im, Complex.I_re, Complex.I_im, Complex.ofReal_re, Complex.ofReal_im] <;>
      ring
  · rw [if_neg h1, if_neg h1, if_neg h1]
    by_cases h2 : m = j
    · rw [if_pos h2, if_pos h2, if_pos h2]
      apply Complex.ext <;>
        simp [Complex.add_re, Complex.add_im, Complex.sub_re, Complex.sub_im, Complex.mul_re,
          Complex.mul_im, Complex.I_re, Complex.I_im, Complex.ofReal_re, Complex.ofReal_im] <;>
        ring
    · rw [if_neg h2, if_neg h2, if_neg h2]

theorem toC_innerLoop (n size i : ℕ) (s : St) :
    toC (innerLoop n size i s) = cInner n size i (toC s) := by
  unfold innerLoop cInner
  exact (List.foldl_hom toC
    (fun s t => butterfly n (((t : ℕ) : ℝ) * ((n : ℝ) / (size : ℝ))) (size / 2) (i + t) s)
    (fun x t => cButterfly n (((t : ℕ) : ℝ) * ((n : ℝ) / (size : ℝ))) (size / 2) (i + t) x)
    (List.range (size / 2)) s
    (fun a t => (toC_butterfly n _ (size / 2) (i + t) a).symm)).symm

theorem toC_blockLoop (n size : ℕ) (s : St) :
    toC (blockLoop n size s) = cBlock n size (toC s) := by
  unfold blockLoop cBlock
  exact (List.foldl_hom toC
    (fun s b => innerLoop n size (b * size) s)
    (fun x b => cInner n size (b * size) x)
    (List.range ((n + size - 1) / size)) s
    (fun a b => (toC_innerLoop n size (b * size) a).symm)).symm

theorem toC_fftPasses (n : ℕ) (s : St) :
    toC (fftPasses n s) = cPasses n (toC s) := by
  unfold fftPasses cPasses passesUpTo
  exact (List.foldl_hom toC
    (fun s q => blockLoop n (2 ^ (q + 1)) s)
    (fun x q => cBlock n (2 ^ (q + 1)) x)
    (List.range (Nat.log2 n)) s
    (fun a q => (toC_blockLoop n (2 ^ (q + 1)) a).symm)).symm

theorem toC_swap (s : St) (a b : ℕ) :
    toC (swapAt s.1 a b, swapAt s.2 a b) = cswap (toC s) a b := by
  funext m
  simp only [toC, swapAt, cswap]
  by_cases h1 : m = a
  · rw [if_pos h1, if_pos h1, if_pos h1]
  · rw [if_neg h1, if_neg h1, if_neg h1]
    by_cases h2 : m = b
    · rw [if_pos h2, if_pos h2, if_pos h2]
    · rw [if_neg h2, if_neg h2, if_neg h2]

theorem toC_bitrevPerm (n : ℕ) (s : St) :
    toC (bitrevPerm n s) = cBitrev n (toC s) := by
  unfold bitrevPerm cBitrev
  refine (List.foldl_hom toC
    (fun s i => if i < reverseIndex i n
      then (swapAt s.1 i (reverseIndex i n), swapAt s.2 i (reverseIndex i n)) else s)
    (fun x i => if i < reverseIndex i n then cswap x i (reverseIndex i n) else x)
    (List.range n) s (fun a i => ?_)).symm
  beta_reduce
  by_cases hc : i < reverseIndex i n
  · rw [if_pos hc, if_pos hc]
    exact (toC_swap a i (reverseIndex i n)).symm
  · rw [if_neg hc, if_neg hc]

theorem toC_fft (n : ℕ) (s : St) : toC (fft n s) = cfft n (toC s) := by
  unfold fft cfft
  rw [toC_fftPasses, toC_bitrevPerm]

/-- C3: for every power-of-two length n = 2^p and every complex input
sequence held in the (re, im) array pair s, running fft leaves the arrays
holding the unscaled discrete Fourier transform
X_k = Σ_j x_j e^(-2πijk/n) of the original sequence, with no scaling
applied. -/
theorem fft_computes_dft (p : ℕ) (s : St) (k : ℕ) (hk : k < 2 ^ p) :
    toC (fft (2 ^ p) s) k = dft (2 ^ p) (toC s) k := by
  rw [toC_fft]
  exact cfft_dft p (toC s) k hk

/-- Witness for C3 at n = 2, k = 1 with the all-zero input state. -/
theorem fft_computes_dft_witness :
    1 < 2 ^ 1 ∧ toC (fft (2 ^ 1) zeroState) 1 = dft (2 ^ 1) (toC zeroState) 1 :=
  ⟨by decide, fft_computes_dft 1 zeroState 1 (by decide)⟩

theorem toC_re (s : St) (j : ℕ) : (toC s j).re = s.1 j := by simp [toC]

theorem toC_im (s : St) (j : ℕ) : (toC s j).im = s.2 j := by simp [toC]

theorem roundtrip_toC (p : ℕ) (s : St) (m : ℕ) (hm : m < 2 ^ p) :
    toC (ifft (2 ^ p) (fft (2 ^ p) s)) m
      = (starRingEnd ℂ) (toC s ((2 ^ p - m) % 2 ^ p)) := by
  have hn0 : (2 : ℕ) ^ p ≠ 0 := by positivity
  have hnR : ((2 ^ p : ℕ) : ℝ) ≠ 0 := by positivity
  have hfft2 : toC (fft (2 ^ p) (fft (2 ^ p) s)) m
      = ((2 ^ p : ℕ) : ℂ) * toC s ((2 ^ p - m) % 2 ^ p) := by
    rw [fft_computes_dft p _ m hm]
    rw [show dft (2 ^ p) (toC (fft (2 ^ p) s)) m = dft (2 ^ p) (dft (2 ^ p) (toC s)) m from
      dft_congr _ _ _ _ (fun j hj => fft_computes_dft p s j hj)]
    exact dft_dft (2 ^ p) hn0 (toC s) m hm
  have hre := congrArg Complex.re hfft2
  have him := congrArg Complex.im hfft2
  rw [toC_re] at hre
  rw [toC_im] at him
  rw [Complex.mul_re, Complex.natCast_re, Complex.natCast_im, toC_re, toC_im] at hre
  rw [Complex.mul_im, Complex.natCast_re, Complex.natCast_im, toC_re, toC_im] at him
  simp only [zero_mul, mul_zero, sub_zero, add_zero, zero_add] at hre him
  have hL : toC (ifft (2 ^ p) (fft (2 ^ p) s)) m
      = (((fft (2 ^ p) (fft (2 ^ p) s)).1 m / ((2 ^ p : ℕ) : ℝ) : ℝ) : ℂ)
        + ((-((fft (2 ^ p) (fft (2 ^ p) s)).2 m / ((2 ^ p : ℕ) : ℝ)) : ℝ) : ℂ) * Complex.I := by
    simp only [ifft, toC]
    rw [if_pos hm, if_pos hm]
  rw [hL, hre, him]
  rw [mul_div_cancel_left₀ _ hnR, mul_div_cancel_left₀ _ hnR]
  apply Complex.ext
  · simp [toC, Complex.conj_re]
  · simp [toC, Complex.conj_im]

theorem roundtrip_re (p m : ℕ) (s : St) (hm : m < 2 ^ p) :
    (ifft (2 ^ p) (fft (2 ^ p) s)).1 m = s.1 ((2 ^ p - m) % 2 ^ p) := by
  have h := congrArg Complex.re (roundtrip_toC p s m hm)
  rwa [toC_re, Complex.conj_re, toC_re] at h

theorem roundtrip_im (p m : ℕ) (s : St) (hm : m < 2 ^ p) :
    (ifft (2 ^ p) (fft (2 ^ p) s)).2 m = -(s.2 ((2 ^ p - m) % 2 ^ p)) := by
  have h := congrArg Complex.im (roundtrip_toC p s m hm)
  rwa [toC_im, Complex.conj_im, toC_im] at h

/-- C10: for every power-of-two length n = 2^p and every complex input
sequence s, running ifft after fft yields the index-reversed conjugate of
the input: the value at index m is the conjugate of the input value at
index (n - m) % n (so index 0 maps to index 0 and index m, 1 ≤ m < n, maps
to index n - m); in particular, for a real input (imaginary array all
zero) the round trip returns the real samples with indices 1..n-1 reversed
in time, with zero imaginary part. -/
theorem ifft_fft_conj_reversal (p m : ℕ) (s : St) (hm : m < 2 ^ p) :
    toC (ifft (2 ^ p) (fft (2 ^ p) s)) m
        = (starRingEnd ℂ) (toC s ((2 ^ p - m) % 2 ^ p)) ∧
      (s.2 = zeroArr →
        (ifft (2 ^ p) (fft (2 ^ p) s)).1 m = s.1 ((2 ^ p - m) % 2 ^ p) ∧
          (ifft (2 ^ p) (fft (2 ^ p) s)).2 m = 0) := by
  refine ⟨roundtrip_toC p s m hm, fun hs2 => ⟨roundtrip_re p m s hm, ?_⟩⟩
  rw [roundtrip_im p m s hm, hs2]
  simp [zeroArr]

/-- Witness for C10 at n = 2, m = 1 with the all-zero input state. -/
theorem ifft_fft_conj_reversal_witness :
    1 < 2 ^ 1 ∧
      (toC (ifft (2 ^ 1) (fft (2 ^ 1) zeroState)) 1
          = (starRingEnd ℂ) (toC zeroState ((2 ^ 1 - 1) % 2 ^ 1)) ∧
        (zeroState.2 = zeroArr →
          (ifft (2 ^ 1) (fft (2 ^ 1) zeroState)).1 1 = zeroState.1 ((2 ^ 1 - 1) % 2 ^ 1) ∧
            (ifft (2 ^ 1) (fft (2 ^ 1) zeroState)).2 1 = 0)) :=
  ⟨by decide, ifft_fft_conj_reversal 1 1 zeroState (by decide)⟩

/-- C1: the round trip IFFT(FFT(x)) does not restore x.  On the real input
re = [0, 1, 2, 3] (n = 4, im = 0) the code returns re[1] = 3, the value of
the original sample 3 = (4 - 1) % 4, not the original re[1] = 1: the
divide-by-n-then-negate-imaginary procedure without a conjugation before
the forward pass inverts the conjugated input, not the input. -/
theorem ifft_fft_roundtrip_fails :
    (ifft 4 (fft 4 rampState)).1 1 = 3 ∧ rampState.1 1 = 1 ∧ (3 : ℝ) ≠ 1 := by
  refine ⟨?_, ?_, by norm_num⟩
  · have h := roundtrip_re 2 1 rampState (by norm_num)
    rw [show (2 : ℕ) ^ 2 = 4 from by norm_num] at h
    rw [h]
    norm_num [rampState]
  · norm_num [rampState]

theorem write_fold_outside (base : ℕ) (v : ℕ → ℝ) :
    ∀ (l : List ℕ) (W : ℕ → ℝ) (m : ℕ), (∀ t ∈ l, m ≠ base + t) →
      (l.foldl (fun W t => fun m2 => if m2 = base + t then v t else W m2) W) m = W m := by
  intro l
  induction l with
  | nil => intro W m _; rfl
  | cons t0 l ih =>
    intro W m hm
    rw [List.foldl_cons]
    rw [ih _ m (fun t ht => hm t (List.mem_cons_of_mem t0 ht))]
    rw [if_neg (hm t0 (List.mem_cons_self t0 l))]

theorem write_fold_apply (base : ℕ) (v : ℕ → ℝ) :
    ∀ (l : List ℕ) (W : ℕ → ℝ) (t : ℕ), t ∈ l → l.Nodup →
      (l.foldl (fun W t => fun m2 => if m2 = base + t then v t else W m2) W) (base + t)
        = v t := by
  intro l
  induction l with
  | nil => intro W t ht _; exact absurd ht (List.not_mem_nil t)
  | cons t0 l ih =>
    intro W t ht hnd
    rw [List.foldl_cons]
    rcases List.mem_cons.mp ht with rfl | htl
    · have hnotin : t ∉ l := (List.nodup_cons.mp hnd).1
      rw [write_fold_outside base v l _ (base + t)
        (fun u hu hcon => hnotin (by
          have : t = u := by omega
          rw [this]; exact hu))]
      rw [if_pos rfl]
    · exact ih _ t htl (List.nodup_cons.mp hnd).2

theorem cwt_apply (signal scales : List ℝ) (wf : ℝ → ℝ → ℝ) (i t : ℕ)
    (hi : i < scales.length) (ht : t < signal.length) :
    cwt signal scales wf (i * signal.length + t)
      = Real.sqrt ((convState signal wf (scales.getD i 0)).1 t
            * (convState signal wf (scales.getD i 0)).1 t
          + (convState signal wf (scales.getD i 0)).2 t
            * (convState signal wf (scales.getD i 0)).2 t)
        / Real.sqrt (scales.getD i 0) := by
  unfold cwt
  have happ := foldl_owner
    (fun i W => (List.range signal.length).foldl
      (fun W t => fun m => if m = i * signal.length + t then
        Real.sqrt ((convState signal wf (scales.getD i 0)).1 t
            * (convState signal wf (scales.getD i 0)).1 t
          + (convState signal wf (scales.getD i 0)).2 t
            * (convState signal wf (scales.getD i 0)).2 t)
          / Real.sqrt (scales.getD i 0)
        else W m) W)
    (fun i => Finset.Ico (i * signal.length) (i * signal.length + signal.length))
    ?_ ?_ (List.range scales.length) ?_ (fun _ => 0) i (List.mem_range.mpr hi)
    (i * signal.length + t) ?_
  · rw [happ]
    exact write_fold_apply (i * signal.length) _ (List.range signal.length) _ t
      (List.mem_range.mpr ht) (List.nodup_range signal.length)
  · intro e a m hm
    simp only [Finset.mem_Ico, not_and, not_lt] at hm
    refine write_fold_outside (e * signal.length) _ (List.range signal.length) a m ?_
    intro u hu hcon
    have hult : u < signal.length := List.mem_range.mp hu
    by_cases hple : e * signal.length ≤ m
    · have := hm hple
      omega
    · omega
  · intro e a b hab m hm
    simp only [Finset.mem_Ico] at hm
    obtain ⟨u, hult, rfl⟩ : ∃ u, u < signal.length ∧ m = e * signal.length + u :=
      ⟨m - e * signal.length, by omega, by omega⟩
    beta_reduce
    rw [write_fold_apply (e * signal.length) _ (List.range signal.length) a u
      (List.mem_range.mpr hult) (List.nodup_range signal.length)]
    rw [write_fold_apply (e * signal.length) _ (List.range signal.length) b u
      (List.mem_range.mpr hult) (List.nodup_range signal.length)]
  · refine List.Pairwise.imp ?_ (List.pairwise_lt_range scales.length)
    intro a b hab
    rw [Finset.disjoint_left]
    intro m hma hmb
    rw [Finset.mem_Ico] at hma hmb
    have hmul : (a + 1) * signal.length ≤ b * signal.length :=
      Nat.mul_le_mul_right signal.length (by omega)
    have hdist : (a + 1) * signal.length = a * signal.length + signal.length := by ring
    omega
  · rw [Finset.mem_Ico]
    omega

theorem cwtMatrix_length (signal scales : List ℝ) (wf : ℝ → ℝ → ℝ) :
    (cwtMatrix signal scales wf).length = scales.length := by
  simp [cwtMatrix]

theorem cwtMatrix_row_length (signal scales : List ℝ) (wf : ℝ → ℝ → ℝ) :
    ∀ row ∈ cwtMatrix signal scales wf, row.length = signal.length := by
  intro row hrow
  simp only [cwtMatrix, List.mem_map] at hrow
  obtain ⟨i, _, rfl⟩ := hrow
  simp

/-- C2: for a signal of length N ≥ 1 and strictly positive scales, cwt
produces a matrix of exactly M = scales.length rows by N columns, row-major
by scale in input order; the entry at row i, column t is
sqrt(convolutionRe[t]^2 + convolutionIm[t]^2) / sqrt(scales[i]) where
(convolutionRe, convolutionIm) is the inverse-transformed frequency-domain
product for scale i; hence every entry is nonnegative. -/
theorem cwt_shape_formula_nonneg (signal scales : List ℝ) (wf : ℝ → ℝ → ℝ)
    (hN : 1 ≤ signal.length) (hpos : ∀ a ∈ scales, 0 < a) :
    (cwtMatrix signal scales wf).length = scales.length ∧
      (∀ row ∈ cwtMatrix signal scales wf, row.length = signal.length) ∧
      (∀ i t, i < scales.length → t < signal.length →
        cwt signal scales wf (i * signal.length + t)
          = Real.sqrt ((convState signal wf (scales.getD i 0)).1 t
                * (convState signal wf (scales.getD i 0)).1 t
              + (convState signal wf (scales.getD i 0)).2 t
                * (convState signal wf (scales.getD i 0)).2 t)
            / Real.sqrt (scales.getD i 0)) ∧
      (∀ row ∈ cwtMatrix signal scales wf, ∀ v ∈ row, 0 ≤ v) := by
  refine ⟨cwtMatrix_length signal scales wf, cwtMatrix_row_length signal scales wf,
    fun i t hi ht => cwt_apply signal scales wf i t hi ht, ?_⟩
  intro row hrow v hv
  simp only [cwtMatrix, List.mem_map] at hrow
  obtain ⟨i, hi, rfl⟩ := hrow
  simp only [List.mem_map, List.mem_range] at hv
  obtain ⟨t, ht, rfl⟩ := hv
  rw [cwt_apply signal scales wf i t (List.mem_range.mp hi) ht]
  exact div_nonneg (Real.sqrt_nonneg _) (Real.sqrt_nonneg _)

/-- Witness for C2 at signal [1], scales [1], morlet wavelet. -/
theorem cwt_shape_formula_nonneg_witness :
    1 ≤ [(1 : ℝ)].length ∧
      ((cwtMatrix [(1 : ℝ)] [(1 : ℝ)] morlet).length = [(1 : ℝ)].length ∧
        (∀ row ∈ cwtMatrix [(1 : ℝ)] [(1 : ℝ)] morlet, row.length = [(1 : ℝ)].length) ∧
        (∀ i t, i < [(1 : ℝ)].length → t < [(1 : ℝ)].length →
          cwt [(1 : ℝ)] [(1 : ℝ)] morlet (i * [(1 : ℝ)].length + t)
            = Real.sqrt ((convState [(1 : ℝ)] morlet ([(1 : ℝ)].getD i 0)).1 t
                  * (convState [(1 : ℝ)] morlet ([(1 : ℝ)].getD i 0)).1 t
                + (convState [(1 : ℝ)] morlet ([(1 : ℝ)].getD i 0)).2 t
                  * (convState [(1 : ℝ)] morlet ([(1 : ℝ)].getD i 0)).2 t)
              / Real.sqrt ([(1 : ℝ)].getD i 0)) ∧
        (∀ row ∈ cwtMatrix [(1 : ℝ)] [(1 : ℝ)] morlet, ∀ v ∈ row, 0 ≤ v)) :=
  ⟨by simp, cwt_shape_formula_nonneg [(1 : ℝ)] [(1 : ℝ)] morlet (by simp)
    (fun a ha => by simp at ha; rw [ha]; norm_num)⟩

/-- C4 counterexample: with signal [1] and the scale list [0] (a
non-positive scale), cwt does not fail and a full 1-by-1 matrix is
returned, refuting the claim that the call fails with InvalidScaleError
and returns no matrix. -/
theorem cwt_scale_zero_matrix_returned :
    (cwtMatrix [(1 : ℝ)] [(0 : ℝ)] morlet).length = 1 ∧
      (∀ row ∈ cwtMatrix [(1 : ℝ)] [(0 : ℝ)] morlet, row.length = 1) ∧
      cwtCall [(1 : ℝ)] [(0 : ℝ)] morlet
        = Except.ok (cwtMatrix [(1 : ℝ)] [(0 : ℝ)] morlet) := by
  refine ⟨?_, ?_, rfl⟩
  · rw [cwtMatrix_length]
    rfl
  · intro row hrow
    rw [cwtMatrix_row_length _ _ _ row hrow]
    rfl

/-- C4 amended: cwt performs no scale validation; even when the scale list
contains a value ≤ 0 the call returns normally with the full
scales.length-by-signal.length matrix (entries at non-positive scales are
junk values rather than an error — in JS float semantics NaN). -/
theorem cwt_nonpositive_scale_full_matrix (signal scales : List ℝ) (wf : ℝ → ℝ → ℝ)
    (hbad : ∃ a ∈ scales, a ≤ 0) :
    (cwtMatrix signal scales wf).length = scales.length ∧
      ∀ row ∈ cwtMatrix signal scales wf, row.length = signal.length :=
  ⟨cwtMatrix_length signal scales wf, cwtMatrix_row_length signal scales wf⟩

/-- Witness for the amended C4 at signal [1], scales [0]. -/
theorem cwt_nonpositive_scale_full_matrix_witness :
    (∃ a ∈ [(0 : ℝ)], a ≤ 0) ∧
      ((cwtMatrix [(1 : ℝ)] [(0 : ℝ)] morlet).length = [(0 : ℝ)].length ∧
        ∀ row ∈ cwtMatrix [(1 : ℝ)] [(0 : ℝ)] morlet, row.length = [(1 : ℝ)].length) :=
  ⟨⟨0, by simp⟩,
    cwt_nonpositive_scale_full_matrix [(1 : ℝ)] [(0 : ℝ)] morlet ⟨0, by simp⟩⟩

/-- C6 counterexample: with the empty signal and scale list [1], cwt does
not fail: it returns a matrix with one (empty) row, refuting the claim
that the call fails with EmptyInputError and produces no matrix. -/
theorem cwt_empty_signal_matrix_returned :
    (cwtMatrix ([] : List ℝ) [(1 : ℝ)] morlet).length = 1 ∧
      (∀ row ∈ cwtMatrix ([] : List ℝ) [(1 : ℝ)] morlet, row.length = 0) ∧
      cwtCall ([] : List ℝ) [(1 : ℝ)] morlet
        = Except.ok (cwtMatrix ([] : List ℝ) [(1 : ℝ)] morlet) := by
  refine ⟨?_, ?_, rfl⟩
  · rw [cwtMatrix_length]
    rfl
  · intro row hrow
    rw [cwtMatrix_row_length _ _ _ row hrow]
    rfl

/-- C6 amended: cwt performs no emptiness validation; with an empty signal
or an empty scale list it still returns normally, producing a matrix with
scales.length rows of signal.length columns (so a possibly zero-sized
matrix, never an EmptyInputError). -/
theorem cwt_empty_input_full_matrix (signal scales : List ℝ) (wf : ℝ → ℝ → ℝ)
    (hempty : signal = [] ∨ scales = []) :
    (cwtMatrix signal scales wf).length = scales.length ∧
      ∀ row ∈ cwtMatrix signal scales wf, row.length = signal.length :=
  ⟨cwtMatrix_length signal scales wf, cwtMatrix_row_length signal scales wf⟩

/-- Witness for the amended C6 at the empty signal and scales [1]. -/
theorem cwt_empty_input_full_matrix_witness :
    (([] : List ℝ) = [] ∨ [(1 : ℝ)] = []) ∧
      ((cwtMatrix ([] : List ℝ) [(1 : ℝ)] morlet).length = [(1 : ℝ)].length ∧
        ∀ row ∈ cwtMatrix ([] : List ℝ) [(1 : ℝ)] morlet,
          row.length = ([] : List ℝ).length) :=
  ⟨Or.inl rfl, cwt_empty_input_full_matrix ([] : List ℝ) [(1 : ℝ)] morlet (Or.inl rfl)⟩

/-- C5 counterexample: 3 is not a power of two, yet a call to fft (or
ifft) at length 3 does not fail: the source contains no length check and
no InvalidLengthError, so the call returns normally. -/
theorem fft_length_three_returns :
    (¬ ∃ k : ℕ, (3 : ℕ) = 2 ^ k) ∧
      fftCall 3 zeroState = Except.ok (fft 3 zeroState) ∧
      ifftCall 3 zeroState = Except.ok (ifft 3 zeroState) := by
  refine ⟨?_, rfl, rfl⟩
  rintro ⟨k, hk⟩
  rcases k with _ | _ | k
  · norm_num at hk
  · norm_num at hk
  · have h1 : (1 : ℕ) ≤ 2 ^ k := Nat.one_le_two_pow
    have h4 : (4 : ℕ) * 2 ^ k = 2 ^ (k + 2) := by ring
    omega

/-- C5 amended: fft and ifft never fail, for any length whatsoever — the
source performs no length validation and contains no throw statement, so
every call returns normally (the totality over power-of-two lengths
claimed by the second half of C5 holds, but so does totality everywhere
else). -/
theorem fft_ifft_never_fail (n : ℕ) (s : St) :
    (fftCall n s).isOk = true ∧ (ifftCall n s).isOk = true :=
  ⟨rfl, rfl⟩

/-- C7 counterexample: the wavelet buffer is synthesised at shifted time
t - N/2 with N the signal length (line: const shiftedT = t - N / 2), not
at t - paddedLength/2.  For signal length N = 1 the padded length is 2,
and with the kernel wf(a, s) = a the buffer value at index 0 is
-(1/2) = 0 - 1/2, whereas the claimed shift would give -1 = 0 - 2/2. -/
theorem wavelet_shift_uses_signal_length :
    paddedLength 1 = 2 ∧
      waveletBuf 1 (fun a _ => a) 1 0 = -(1 / 2) ∧
      waveletBuf (paddedLength 1) (fun a _ => a) 1 0 = -1 ∧
      waveletBuf 1 (fun a _ => a) 1 0 ≠ waveletBuf (paddedLength 1) (fun a _ => a) 1 0 := by
  have h21 : Nat.clog 2 2 = 1 := Nat.clog_pow 2 1 (by norm_num)
  have hp : paddedLength 1 = 2 := by
    unfold paddedLength
    rw [if_neg (by norm_num)]
    norm_num [h21]
  refine ⟨hp, ?_, ?_, ?_⟩
  · unfold waveletBuf
    norm_num
  · rw [hp]
    unfold waveletBuf
    norm_num
  · rw [hp]
    unfold waveletBuf
    norm_num

/-- C7 amended: for every scale the kernel buffer holds
wf(t - N/2, scale) at index t, where N is the signal length; therefore the
kernel peak sits at index N/2 (where the shifted argument is 0), not at
the padded buffer's midpoint paddedLength/2. -/
theorem wavelet_centered_at_half_signal (N : ℕ) (wf : ℝ → ℝ → ℝ) (scale : ℝ)
    (hN : 2 ∣ N) :
    waveletBuf N wf scale (N / 2) = wf 0 scale ∧
      ∀ t : ℕ, waveletBuf N wf scale t = wf ((t : ℝ) - (N : ℝ) / 2) scale := by
  constructor
  · unfold waveletBuf
    congr 1
    obtain ⟨c, rfl⟩ := hN
    rw [Nat.mul_div_cancel_left c (by norm_num)]
    push_cast
    ring
  · intro t
    rfl

/-- Witness for the amended C7 at N = 4, morlet, scale 1. -/
theorem wavelet_centered_at_half_signal_witness :
    2 ∣ 4 ∧
      (waveletBuf 4 morlet 1 (4 / 2) = morlet 0 1 ∧
        ∀ t : ℕ, waveletBuf 4 morlet 1 t = morlet ((t : ℝ) - ((4 : ℕ) : ℝ) / 2) 1) :=
  ⟨by decide, wavelet_centered_at_half_signal 4 morlet 1 (by decide)⟩
